import Mathlib

/-!
# Verification of the HugeCTR interaction-layer reference computation

Shallow embedding of the host reference implementation in
`test/utest/legacy_layer_test/interaction_layer_test_old.cpp`, which is the
repository's executable specification of the interaction layer's forward and
backward passes.  Numeric values are modelled as exact integers `ℤ` (the algorithm is polynomial in `+` and `*`, so any commutative-ring instantiation carries the same structure); the
structure of every computation (loop bounds, enumeration order, index
arithmetic, accumulate-versus-overwrite) is carried over from the source
loops unchanged.  Tensors are modelled as functions from indices to values
(per-sample slices where the source fixes the sample stride) and the
per-sample output row as a `List ℤ`, in the exact order the source's running
`cur_idx` writes it.
-/

namespace Interaction

/-- The sequential accumulator loop `float accum = 0.0f; for k < count accum += f k;`
used by both the host matmul loop and the host recombination loop. -/
def accumLoop (count : ℕ) (f : ℕ → ℤ) : ℤ :=
  (List.range count).foldl (fun a k => a + f k) 0

/-- `concat_op(true)` for one sample: row `0` of the concatenated matrix is the
dense ("mlp") vector, row `ni` for `ni ≥ 1` is embedding vector `ni - 1`
(`h_concat[out_idx] = (ni == 0) ? h_in_mlp[...] : h_in_emb[(ni-1)*in_width + ...]`). -/
def concatRow (mlp : ℕ → ℤ) (emb : ℕ → ℕ → ℤ) (ni w : ℕ) : ℤ :=
  if ni = 0 then mlp w else emb (ni - 1) w

/-- The host matmul loop for one sample: `h_mat[m*n_ins+n] = accum`, where
`accum += get_accum(h_concat[m*in_width+k], h_concat[n*in_width+k])` over
`k < in_width`, with a `float` accumulator. -/
def gram (in_width : ℕ) (mat : ℕ → ℕ → ℤ) (m n : ℕ) : ℤ :=
  accumLoop in_width (fun k => mat m k * mat n k)

/-- The `(m, n)` index pairs emitted by the host output-assembly loop, in
emission order: `for n < n_ins: for m < n_ins: if (n > m) emit (m, n)`. -/
def triPairs (n_ins : ℕ) : List (ℕ × ℕ) :=
  (List.range n_ins).flatMap fun n =>
    (List.range n_ins).filterMap fun m => if n > m then some (m, n) else none

/-- The host output-assembly loop for one sample: first the `in_width` dense
values `h_in_mlp`, then `h_mat[m*n_ins+n]` for each emitted pair `(m, n)`,
then the untouched trailing slot of the zero-initialised `h_ref` row. -/
def outputRow (in_width n_ins : ℕ) (mlp : ℕ → ℤ) (g : ℕ → ℕ → ℤ) : List ℤ :=
  (List.range in_width).map mlp ++ (triPairs n_ins).map (fun q => g q.1 q.2) ++ [0]

/-- `out_len` exactly as computed by the source:
`in_width + (n_ins * (n_ins + 1) / 2 - n_ins) + 1`. -/
def out_len (in_width n_ins : ℕ) : ℕ :=
  in_width + (n_ins * (n_ins + 1) / 2 - n_ins) + 1

/-- Position of the first occurrence of an element in a list (the running
`cur_idx` value at which the assembly/disassembly loops reach that element of
the enumeration). -/
def posIn {α : Type} [DecidableEq α] (p : α) : List α → ℕ
  | [] => 0
  | q :: qs => if q = p then 0 else posIn p qs + 1

/-- The host bprop disassembly of one output-gradient row into the Gram-matrix
gradient: the loop re-runs the forward enumeration and reads the next
output-gradient value at each `(m, n)` with `n > m`, writing `0` everywhere
else (`h_mat[...] = (n > m) ? h_ref[out_stride + cur_idx++] : 0`).  The value
consumed at pair `(m, n)` sits at offset `in_width` plus the pair's position in
the emission order. -/
def gramGradOf (in_width n_ins : ℕ) (outRow : List ℤ) (m n : ℕ) : ℤ :=
  if m < n_ins ∧ n < n_ins ∧ n > m then
    outRow.getD (in_width + posIn (m, n) (triPairs n_ins)) 0
  else 0

/-- The host bprop pass-through of the first `in_width` output-gradient values
into the dense-gradient buffer (`h_in_mlp[p*in_width+i] = h_ref[out_stride+cur_idx++]`);
outside the written range the buffer keeps its previous content. -/
def densePassGrad (in_width : ℕ) (outRow : List ℤ) (prior : ℕ → ℤ) (i : ℕ) : ℤ :=
  if i < in_width then outRow.getD i 0 else prior i

/-- The host bprop recombination loop for one sample:
`accum += get_sec_accum(h_mat[m*n_ins+k], h_mat[k*n_ins+m], h_concat_tmp[k*in_width+n])`
over `k < n_ins`, i.e. `(gGrad m k + gGrad k m) * mat k j`, with a `float`
accumulator; `h_concat[m*in_width+n] = 1.0f * accum`. -/
def matrixGrad (in_width n_ins : ℕ) (gGrad mat : ℕ → ℕ → ℤ) (m j : ℕ) : ℤ :=
  accumLoop n_ins (fun k => (gGrad m k + gGrad k m) * mat k j)

/-- `concat_op(false)`, dense branch (`ni = 0`): the row-0 slice of the
concatenated-matrix gradient is added onto the existing dense-gradient buffer
(`h_in_mlp[in_idx] = h_in_mlp[in_idx] + h_concat[out_idx]`); indices outside
the loop range keep the prior content. -/
def scatterDense (in_width : ℕ) (mGrad : ℕ → ℕ → ℤ) (prior : ℕ → ℤ) (w : ℕ) : ℤ :=
  if w < in_width then prior w + mGrad 0 w else prior w

/-- `concat_op(false)`, embedding branch (`ni ≥ 1`): embedding-gradient row `e`
is overwritten with row `e + 1` of the concatenated-matrix gradient
(`h_in_emb[...] = h_concat[out_idx]`); indices outside the loop range keep the
prior content. -/
def scatterEmb (n_emb in_width : ℕ) (mGrad : ℕ → ℕ → ℤ) (prior : ℕ → ℕ → ℤ)
    (e w : ℕ) : ℤ :=
  if e < n_emb ∧ w < in_width then mGrad (e + 1) w else prior e w

/-- Forward pipeline for one sample, composing `concat_op(true)`, the host
matmul loop and the host output assembly, with `n_ins = 1 + n_emb`. -/
def interactionForward (in_width n_emb : ℕ) (mlp : ℕ → ℤ) (emb : ℕ → ℕ → ℤ) :
    List ℤ :=
  outputRow in_width (1 + n_emb) mlp (gram in_width (concatRow mlp emb))

/-- Backward pipeline for one sample: disassemble the output-gradient row,
recombine with the retained concatenated matrix, and scatter — the dense
gradient accumulating onto the pass-through, the embedding gradient
overwriting the buffer that still holds the embedding input. -/
def interactionBackward (in_width n_emb : ℕ) (mlp : ℕ → ℤ) (emb : ℕ → ℕ → ℤ)
    (outRow : List ℤ) : (ℕ → ℤ) × (ℕ → ℕ → ℤ) :=
  (scatterDense in_width
    (matrixGrad in_width (1 + n_emb) (gramGradOf in_width (1 + n_emb) outRow)
      (concatRow mlp emb))
    (densePassGrad in_width outRow mlp),
   scatterEmb n_emb in_width
    (matrixGrad in_width (1 + n_emb) (gramGradOf in_width (1 + n_emb) outRow)
      (concatRow mlp emb))
    emb)

/-- Sample-indexed dense input of the concrete scenario:
`dense = [[1,2],[3,4]]` (height 2, in_width 2). -/
def scenDense : ℕ → ℕ → ℤ := fun p w =>
  if p = 0 then (if w = 0 then 1 else 2) else (if w = 0 then 3 else 4)

/-- Sample-indexed embedding input of the concrete scenario:
`emb = [[[5,6]],[[7,8]]]` (height 2, n_emb 1, in_width 2). -/
def scenEmb : ℕ → ℕ → ℕ → ℤ := fun p _ w =>
  if p = 0 then (if w = 0 then 5 else 6) else (if w = 0 then 7 else 8)

/-- Shape-checked error conditions of the operator boundary. -/
inductive InteractionError : Type where
  | ShapeMismatch : InteractionError
  | InvalidSequence : InteractionError

/-- Dense forward input with its dimensions. -/
structure DenseInput where
  height : ℕ
  width : ℕ
  data : ℕ → ℕ → ℤ

/-- Embedding forward input with its dimensions. -/
structure EmbInput where
  height : ℕ
  n_emb : ℕ
  width : ℕ
  data : ℕ → ℕ → ℕ → ℤ

/-- Modelled from the spec: the `InteractionLayer` constructor's shape
validation is not among these sources (only the test harness is), so the
ShapeMismatch check is modelled from the spec's words — "any disagreement
between input dimensions or against the operator's configured shape; fatal,
detected synchronously before computation, not retried".  On success the host
reference forward pipeline runs; on mismatch the call aborts with
`ShapeMismatch` and produces no output. -/
def forwardChecked (cfg_height cfg_n_emb cfg_width : ℕ) (d : DenseInput)
    (e : EmbInput) : Except InteractionError (ℕ → List ℤ) :=
  if d.height = cfg_height ∧ e.height = cfg_height ∧ d.width = cfg_width
      ∧ e.width = cfg_width ∧ e.n_emb = cfg_n_emb then
    Except.ok fun p => interactionForward cfg_width cfg_n_emb (d.data p) (e.data p)
  else
    Except.error InteractionError.ShapeMismatch

/-! ## Basic lemmas about the embedding -/

theorem accumLoop_succ (count : ℕ) (f : ℕ → ℤ) :
    accumLoop (count + 1) f = accumLoop count f + f count := by
  unfold accumLoop
  rw [List.range_succ, List.foldl_append]
  rfl

theorem accumLoop_eq_sum (count : ℕ) (f : ℕ → ℤ) :
    accumLoop count f = ∑ k ∈ Finset.range count, f k := by
  induction count with
  | zero => rfl
  | succ n ih => rw [accumLoop_succ, Finset.sum_range_succ, ih]

theorem filterMap_lt_eq_map_range_min (n len : ℕ) :
    ((List.range len).filterMap fun m => if n > m then some (m, n) else none) =
      (List.range (min n len)).map fun m => (m, n) := by
  induction len with
  | zero => simp
  | succ len ih =>
    rw [List.range_succ, List.filterMap_append, ih]
    rcases Nat.lt_or_ge len n with hlt | hge
    · have h1 : min n len = len := Nat.min_eq_right (Nat.le_of_lt hlt)
      have h2 : min n (len + 1) = len + 1 := Nat.min_eq_right hlt
      rw [h1, h2, List.range_succ, List.map_append]
      simp [hlt]
    · have h1 : min n len = n := Nat.min_eq_left hge
      have h2 : min n (len + 1) = n := Nat.min_eq_left (Nat.le_succ_of_le hge)
      rw [h1, h2]
      simp [Nat.not_lt.mpr hge]

theorem filterMap_lt_eq_map_range {n len : ℕ} (h : n ≤ len) :
    ((List.range len).filterMap fun m => if n > m then some (m, n) else none) =
      (List.range n).map fun m => (m, n) := by
  rw [filterMap_lt_eq_map_range_min, Nat.min_eq_left h]

/-- The emission order of the host assembly loop is exactly the column-major
strict-upper-triangle enumeration: for each `n`, the pairs `(0, n) … (n-1, n)`. -/
theorem triPairs_eq (n_ins : ℕ) :
    triPairs n_ins =
      (List.range n_ins).flatMap fun n => (List.range n).map fun m => (m, n) := by
  unfold triPairs
  apply List.flatMap_congr
  intro n hn
  exact filterMap_lt_eq_map_range (Nat.le_of_lt (List.mem_range.mp hn))

theorem mem_triPairs {n_ins m n : ℕ} :
    (m, n) ∈ triPairs n_ins ↔ m < n ∧ n < n_ins := by
  rw [triPairs_eq]
  simp only [List.mem_flatMap, List.mem_map, List.mem_range]
  constructor
  · rintro ⟨a, ha, b, hb, hq⟩
    rw [Prod.mk.injEq] at hq
    obtain ⟨rfl, rfl⟩ := hq
    exact ⟨hb, ha⟩
  · rintro ⟨hmn, hn⟩
    exact ⟨n, hn, m, hmn, rfl⟩

theorem triPairs_length (n_ins : ℕ) :
    (triPairs n_ins).length = n_ins * (n_ins - 1) / 2 := by
  induction n_ins with
  | zero => rfl
  | succ k ih =>
    rw [triPairs_eq, List.range_succ, List.flatMap_append, List.length_append,
      ← triPairs_eq, ih]
    simp only [List.flatMap_cons, List.flatMap_nil, List.append_nil,
      List.length_map, List.length_range, Nat.add_sub_cancel]
    have h2 : (k + 1) * k = k * (k - 1) + 2 * k := by
      rcases k with _ | j
      · rfl
      · simp only [Nat.add_sub_cancel]; ring
    rw [h2, Nat.add_mul_div_left _ _ (by norm_num : 0 < 2)]

theorem posIn_lt_length {α : Type} [DecidableEq α] {p : α} :
    ∀ {l : List α}, p ∈ l → posIn p l < l.length := by
  intro l h
  induction l with
  | nil => cases h
  | cons q qs ih =>
    by_cases hq : q = p
    · simp [posIn, hq]
    · rcases List.mem_cons.mp h with h1 | h2
      · exact absurd h1.symm hq
      · simpa [posIn, hq] using ih h2

theorem getD_map_posIn {α β : Type} [DecidableEq α] (f : α → β) (d : β) {p : α} :
    ∀ {l : List α}, p ∈ l → (l.map f).getD (posIn p l) d = f p := by
  intro l h
  induction l with
  | nil => cases h
  | cons q qs ih =>
    by_cases hq : q = p
    · simp [posIn, hq]
    · rcases List.mem_cons.mp h with h1 | h2
      · exact absurd h1.symm hq
      · simpa [posIn, hq] using ih h2

/-- The source's `out_len` expression equals the spec's
`in_width + n_ins*(n_ins-1)/2 + 1`. -/
theorem out_len_eq (in_width n_ins : ℕ) :
    out_len in_width n_ins = in_width + n_ins * (n_ins - 1) / 2 + 1 := by
  unfold out_len
  have h2 : n_ins * (n_ins + 1) = n_ins * (n_ins - 1) + 2 * n_ins := by
    rcases n_ins with _ | j
    · rfl
    · simp only [Nat.add_sub_cancel]; ring
  rw [h2, Nat.add_mul_div_left _ _ (by norm_num : 0 < 2), Nat.add_sub_cancel]

theorem outputRow_length (in_width n_ins : ℕ) (mlp : ℕ → ℤ) (g : ℕ → ℕ → ℤ) :
    (outputRow in_width n_ins mlp g).length = out_len in_width n_ins := by
  unfold outputRow
  rw [List.length_append, List.length_append, List.length_map, List.length_map,
    List.length_range, triPairs_length, out_len_eq]
  rfl

/-! ## Claim theorems -/

/-- C1: backward gradient recombination — for every row index `m < n_ins` and
column `j < in_width`, the recombination loop produces
`matrixGrad m j = Σ_{k < n_ins} (GramGrad[m,k] + GramGrad[k,m]) * matrix[k,j]`,
the inner sum being the sequential accumulator loop of the source (modelled
here over exact integers; the source runs it in a `float` accumulator). -/
theorem matrixGrad_recombination (in_width n_ins : ℕ) (gGrad mat : ℕ → ℕ → ℤ)
    (m j : ℕ) (hm : m < n_ins) (hj : j < in_width) :
    matrixGrad in_width n_ins gGrad mat m j
      = ∑ k ∈ Finset.range n_ins, (gGrad m k + gGrad k m) * mat k j := by
  unfold matrixGrad
  rw [accumLoop_eq_sum]

theorem matrixGrad_recombination_witness :
    (0 : ℕ) < 2 ∧ (0 : ℕ) < 1 ∧
      matrixGrad 1 2 (fun i j => (i : ℤ) + 2 * j) (fun i j => (i : ℤ) * j + 3) 0 0
        = ∑ k ∈ Finset.range 2,
            (((0 : ℕ) : ℤ) + 2 * k + ((k : ℤ) + 2 * 0)) * ((k : ℤ) * 0 + 3) :=
  ⟨by decide, by decide,
    matrixGrad_recombination 1 2 (fun i j => (i : ℤ) + 2 * j)
      (fun i j => (i : ℤ) * j + 3) 0 0 (by decide) (by decide)⟩

/-- C3: Gram forward computation — for all `i, j < n_ins = 1 + n_emb`, the host
matmul loop yields `Gram[i,j] = Σ_{k < in_width} matrix[i,k] * matrix[j,k]`,
where row `0` of the concatenated matrix is the dense vector and row `e + 1`
is embedding vector `e` (source order).  The source accumulates in a `float`
accumulator regardless of storage type; the model uses exact integers. -/
theorem gram_forward_dot (n_emb in_width : ℕ) (mlp : ℕ → ℤ) (emb : ℕ → ℕ → ℤ)
    (i j : ℕ) (hi : i < 1 + n_emb) (hj : j < 1 + n_emb) :
    gram in_width (concatRow mlp emb) i j
      = ∑ k ∈ Finset.range in_width, concatRow mlp emb i k * concatRow mlp emb j k
    ∧ (∀ k, concatRow mlp emb 0 k = mlp k)
    ∧ (∀ e k, concatRow mlp emb (e + 1) k = emb e k) := by
  refine ⟨?_, fun k => rfl, fun e k => ?_⟩
  · unfold gram
    rw [accumLoop_eq_sum]
  · simp [concatRow]

theorem gram_forward_dot_witness :
    (0 : ℕ) < 1 + 1 ∧ (1 : ℕ) < 1 + 1 ∧
      (gram 2 (concatRow (fun w => (w : ℤ) + 1) (fun e w => (e : ℤ) + w)) 0 1
          = ∑ k ∈ Finset.range 2,
              concatRow (fun w => (w : ℤ) + 1) (fun e w => (e : ℤ) + w) 0 k *
                concatRow (fun w => (w : ℤ) + 1) (fun e w => (e : ℤ) + w) 1 k
        ∧ (∀ k, concatRow (fun w => (w : ℤ) + 1) (fun e w => (e : ℤ) + w) 0 k
            = (k : ℤ) + 1)
        ∧ (∀ e k, concatRow (fun w => (w : ℤ) + 1) (fun e w => (e : ℤ) + w) (e + 1) k
            = (e : ℤ) + k)) :=
  ⟨by decide, by decide,
    gram_forward_dot 1 2 (fun w => (w : ℤ) + 1) (fun e w => (e : ℤ) + w) 0 1
      (by decide) (by decide)⟩

/-- C8: Gram symmetry — the host matmul loop computes the full matrix, and for
all `i, j < n_ins` the entries satisfy `Gram[i,j] = Gram[j,i]` exactly: both
are the same summation over the same index range with the same factor pairs. -/
theorem gram_symmetric (n_ins in_width : ℕ) (mat : ℕ → ℕ → ℤ) (i j : ℕ)
    (hi : i < n_ins) (hj : j < n_ins) :
    gram in_width mat i j = gram in_width mat j i := by
  unfold gram
  rw [accumLoop_eq_sum, accumLoop_eq_sum]
  exact Finset.sum_congr rfl fun k _ => mul_comm _ _

theorem gram_symmetric_witness :
    (0 : ℕ) < 3 ∧ (2 : ℕ) < 3 ∧
      gram 4 (fun i j => (i : ℤ) * 5 + j) 0 2 = gram 4 (fun i j => (i : ℤ) * 5 + j) 2 0 :=
  ⟨by decide, by decide,
    gram_symmetric 3 4 (fun i j => (i : ℤ) * 5 + j) 0 2 (by decide) (by decide)⟩

theorem triPairs_map_eq (n_ins : ℕ) (g : ℕ → ℕ → ℤ) :
    (triPairs n_ins).map (fun q => g q.1 q.2)
      = (List.range' 1 (n_ins - 1)).flatMap fun n => (List.range n).map fun m => g m n := by
  rw [triPairs_eq, List.map_flatMap]
  have hinner : ∀ n : ℕ,
      ((List.range n).map fun m => ((m, n) : ℕ × ℕ)).map (fun q => g q.1 q.2)
        = (List.range n).map fun m => g m n := by
    intro n
    rw [List.map_map]
    rfl
  rcases n_ins with _ | k
  · rfl
  · rw [List.range_eq_range', List.range'_succ]
    simp only [Nat.add_sub_cancel, List.flatMap_cons, List.range_zero, List.map_nil,
      List.nil_append]
    exact List.flatMap_congr fun n _ => hinner n

/-- C2: output layout — each per-sample output row has length
`out_len = in_width + n_ins*(n_ins-1)/2 + 1`; it is the `in_width` dense values,
then the strict-upper-triangle Gram entries enumerated column-major
(`n` from `1` to `n_ins - 1`, `m` from `0` to `n - 1`, emitting `Gram[m,n]`),
then one trailing element that is exactly `0`. -/
theorem output_layout (in_width n_ins : ℕ) (h2 : 2 ≤ n_ins) (mlp : ℕ → ℤ)
    (g : ℕ → ℕ → ℤ) :
    (outputRow in_width n_ins mlp g).length = out_len in_width n_ins
    ∧ out_len in_width n_ins = in_width + n_ins * (n_ins - 1) / 2 + 1
    ∧ outputRow in_width n_ins mlp g
        = (List.range in_width).map mlp
          ++ ((List.range' 1 (n_ins - 1)).flatMap fun n => (List.range n).map fun m => g m n)
          ++ [0]
    ∧ (outputRow in_width n_ins mlp g).getLast? = some 0 := by
  refine ⟨outputRow_length in_width n_ins mlp g, out_len_eq in_width n_ins, ?_, ?_⟩
  · unfold outputRow
    rw [triPairs_map_eq]
  · simp [outputRow, List.getLast?_append]

theorem output_layout_witness :
    (2 : ℕ) ≤ 2 ∧
      ((outputRow 1 2 (fun w => (w : ℤ) + 7) (fun m n => (m : ℤ) + n)).length = out_len 1 2
      ∧ out_len 1 2 = 1 + 2 * (2 - 1) / 2 + 1
      ∧ outputRow 1 2 (fun w => (w : ℤ) + 7) (fun m n => (m : ℤ) + n)
          = (List.range 1).map (fun w => (w : ℤ) + 7)
            ++ ((List.range' 1 (2 - 1)).flatMap fun n =>
                  (List.range n).map fun m => (m : ℤ) + n)
            ++ [0]
      ∧ (outputRow 1 2 (fun w => (w : ℤ) + 7) (fun m n => (m : ℤ) + n)).getLast? = some 0) :=
  ⟨by decide, output_layout 1 2 (by decide) (fun w => (w : ℤ) + 7) (fun m n => (m : ℤ) + n)⟩

/-- C10: dead lower triangle — any variant of the Gram computation that agrees
with the host matmul loop on the strict upper triangle (`m < n < n_ins`), with
all other entries arbitrary, assembles to exactly the same output row as the
full forward pass: the assembly reads only `n > m` entries. -/
theorem dead_lower_triangle (in_width n_emb : ℕ) (mlp : ℕ → ℤ) (emb : ℕ → ℕ → ℤ)
    (g' : ℕ → ℕ → ℤ)
    (hagree : ∀ n, n < 1 + n_emb → ∀ m, m < n →
      g' m n = gram in_width (concatRow mlp emb) m n) :
    outputRow in_width (1 + n_emb) mlp g' = interactionForward in_width n_emb mlp emb := by
  unfold interactionForward outputRow
  have h : (triPairs (1 + n_emb)).map (fun q => g' q.1 q.2)
      = (triPairs (1 + n_emb)).map
          (fun q => gram in_width (concatRow mlp emb) q.1 q.2) := by
    apply List.map_congr_left
    rintro ⟨m, n⟩ hq
    obtain ⟨hmn, hn⟩ := mem_triPairs.mp hq
    exact hagree n hn m hmn
  rw [h]

theorem dead_lower_triangle_witness :
    (∀ n, n < 1 + 1 → ∀ m, m < n →
      (fun m n => if m < n then gram 1 (concatRow (fun _ => (2 : ℤ)) (fun _ _ => 3)) m n
        else 99) m n
        = gram 1 (concatRow (fun _ => (2 : ℤ)) (fun _ _ => 3)) m n) ∧
    outputRow 1 (1 + 1) (fun _ => (2 : ℤ))
        (fun m n => if m < n then gram 1 (concatRow (fun _ => (2 : ℤ)) (fun _ _ => 3)) m n
          else 99)
      = interactionForward 1 1 (fun _ => (2 : ℤ)) (fun _ _ => 3) :=
  ⟨by decide,
    dead_lower_triangle 1 1 (fun _ => (2 : ℤ)) (fun _ _ => 3)
      (fun m n => if m < n then gram 1 (concatRow (fun _ => (2 : ℤ)) (fun _ _ => 3)) m n
        else 99)
      (by decide)⟩

theorem outputRow_getD_dense (in_width n_ins : ℕ) (mlp : ℕ → ℤ) (g : ℕ → ℕ → ℤ)
    {i : ℕ} (hi : i < in_width) :
    (outputRow in_width n_ins mlp g).getD i 0 = mlp i := by
  unfold outputRow
  have hA : i < ((List.range in_width).map mlp).length := by simpa using hi
  have hAT : i < ((List.range in_width).map mlp
      ++ (triPairs n_ins).map fun q => g q.1 q.2).length := by
    simp only [List.length_append, List.length_map, List.length_range]
    omega
  rw [List.getD_eq_getElem?_getD, List.getElem?_append_left hAT,
    List.getElem?_append_left hA]
  simp [List.getElem?_range hi]

theorem outputRow_getD_tri (in_width n_ins : ℕ) (mlp : ℕ → ℤ) (g : ℕ → ℕ → ℤ)
    {m n : ℕ} (hmn : m < n) (hn : n < n_ins) :
    (outputRow in_width n_ins mlp g).getD (in_width + posIn (m, n) (triPairs n_ins)) 0
      = g m n := by
  have hmem : (m, n) ∈ triPairs n_ins := mem_triPairs.mpr ⟨hmn, hn⟩
  have hpos : posIn (m, n) (triPairs n_ins) < (triPairs n_ins).length :=
    posIn_lt_length hmem
  unfold outputRow
  have hAT : in_width + posIn (m, n) (triPairs n_ins)
      < ((List.range in_width).map mlp
          ++ (triPairs n_ins).map fun q => g q.1 q.2).length := by
    simp only [List.length_append, List.length_map, List.length_range]
    omega
  have hle : ((List.range in_width).map mlp).length
      ≤ in_width + posIn (m, n) (triPairs n_ins) := by
    simp only [List.length_map, List.length_range]
    omega
  rw [List.getD_eq_getElem?_getD, List.getElem?_append_left hAT,
    List.getElem?_append_right hle]
  have h := getD_map_posIn (fun q : ℕ × ℕ => g q.1 q.2) 0 hmem
  rw [List.getD_eq_getElem?_getD] at h
  simpa using h

/-- C4: backward disassembly — the first `in_width` output-gradient values pass
through unchanged as the dense pass-through gradient; the triangle values are
scattered into the Gram-matrix gradient at exactly the `(m, n)` (`n > m`)
positions of the forward enumeration; every other position (diagonal and lower
triangle) is set to zero; and the trailing pad-gradient value influences no
output of backward: two output-gradient rows of length `out_len` that agree
below the pad position yield identical backward outputs. -/
theorem backward_disassembly (in_width n_emb : ℕ) (d prior mlp : ℕ → ℤ)
    (g : ℕ → ℕ → ℤ) (emb : ℕ → ℕ → ℤ) (r r' : List ℤ)
    (hlen : r.length = out_len in_width (1 + n_emb))
    (hlen' : r'.length = out_len in_width (1 + n_emb))
    (hpad : ∀ i, i < out_len in_width (1 + n_emb) - 1 → r.getD i 0 = r'.getD i 0) :
    (∀ i, i < in_width →
      densePassGrad in_width (outputRow in_width (1 + n_emb) d g) prior i = d i)
    ∧ (∀ m n, m < n → n < 1 + n_emb →
      gramGradOf in_width (1 + n_emb) (outputRow in_width (1 + n_emb) d g) m n = g m n)
    ∧ (∀ m n, m < 1 + n_emb → n < 1 + n_emb → ¬ n > m →
      gramGradOf in_width (1 + n_emb) (outputRow in_width (1 + n_emb) d g) m n = 0)
    ∧ (∀ w, w < in_width →
      (interactionBackward in_width n_emb mlp emb r).1 w
        = (interactionBackward in_width n_emb mlp emb r').1 w)
    ∧ (∀ e w, e < n_emb → w < in_width →
      (interactionBackward in_width n_emb mlp emb r).2 e w
        = (interactionBackward in_width n_emb mlp emb r').2 e w) := by
  have hout := out_len_eq in_width (1 + n_emb)
  have hTlen := triPairs_length (1 + n_emb)
  have hfun : gramGradOf in_width (1 + n_emb) r = gramGradOf in_width (1 + n_emb) r' := by
    funext m n
    unfold gramGradOf
    by_cases hc : m < 1 + n_emb ∧ n < 1 + n_emb ∧ n > m
    · rw [if_pos hc, if_pos hc]
      apply hpad
      have hmem : (m, n) ∈ triPairs (1 + n_emb) := mem_triPairs.mpr ⟨hc.2.2, hc.2.1⟩
      have hpos := posIn_lt_length hmem
      omega
    · rw [if_neg hc, if_neg hc]
  have hpass : ∀ w, w < in_width →
      densePassGrad in_width r mlp w = densePassGrad in_width r' mlp w := by
    intro w hw
    unfold densePassGrad
    rw [if_pos hw, if_pos hw]
    apply hpad
    omega
  refine ⟨fun i hi => ?_, fun m n hmn hn => ?_, fun m n hm hn hnm => ?_,
    fun w hw => ?_, fun e w he hw => ?_⟩
  · unfold densePassGrad
    rw [if_pos hi]
    exact outputRow_getD_dense in_width (1 + n_emb) d g hi
  · unfold gramGradOf
    rw [if_pos ⟨Nat.lt_trans hmn hn, hn, hmn⟩]
    exact outputRow_getD_tri in_width (1 + n_emb) d g hmn hn
  · unfold gramGradOf
    rw [if_neg (by tauto)]
  · simp only [interactionBackward]
    unfold scatterDense
    rw [if_pos hw, if_pos hw, hfun, hpass w hw]
  · simp only [interactionBackward]
    unfold scatterEmb
    rw [if_pos ⟨he, hw⟩, if_pos ⟨he, hw⟩, hfun]

theorem backward_disassembly_witness :
    ([(1 : ℤ), 2, 3] : List ℤ).length = out_len 1 (1 + 1)
    ∧ ([(1 : ℤ), 2, 4] : List ℤ).length = out_len 1 (1 + 1)
    ∧ (∀ i, i < out_len 1 (1 + 1) - 1 →
        ([(1 : ℤ), 2, 3] : List ℤ).getD i 0 = ([(1 : ℤ), 2, 4] : List ℤ).getD i 0)
    ∧ ((∀ i, i < 1 →
        densePassGrad 1 (outputRow 1 (1 + 1) (fun _ => (6 : ℤ)) (fun m n => (m : ℤ) - n))
          (fun _ => (9 : ℤ)) i = 6)
      ∧ (∀ m n, m < n → n < 1 + 1 →
        gramGradOf 1 (1 + 1)
          (outputRow 1 (1 + 1) (fun _ => (6 : ℤ)) (fun m n => (m : ℤ) - n)) m n
          = (m : ℤ) - n)
      ∧ (∀ m n, m < 1 + 1 → n < 1 + 1 → ¬ n > m →
        gramGradOf 1 (1 + 1)
          (outputRow 1 (1 + 1) (fun _ => (6 : ℤ)) (fun m n => (m : ℤ) - n)) m n = 0)
      ∧ (∀ w, w < 1 →
        (interactionBackward 1 1 (fun _ => (7 : ℤ)) (fun _ _ => 8) [(1 : ℤ), 2, 3]).1 w
          = (interactionBackward 1 1 (fun _ => (7 : ℤ)) (fun _ _ => 8) [(1 : ℤ), 2, 4]).1 w)
      ∧ (∀ e w, e < 1 → w < 1 →
        (interactionBackward 1 1 (fun _ => (7 : ℤ)) (fun _ _ => 8) [(1 : ℤ), 2, 3]).2 e w
          = (interactionBackward 1 1 (fun _ => (7 : ℤ)) (fun _ _ => 8)
              [(1 : ℤ), 2, 4]).2 e w)) :=
  ⟨by decide, by decide, by decide,
    backward_disassembly 1 1 (fun _ => (6 : ℤ)) (fun _ => (9 : ℤ)) (fun _ => (7 : ℤ))
      (fun m n => (m : ℤ) - n) (fun _ _ => 8) [(1 : ℤ), 2, 3] [(1 : ℤ), 2, 4]
      (by decide) (by decide) (by decide)⟩

theorem accumLoop_two (f : ℕ → ℤ) : accumLoop 2 f = f 0 + f 1 := by
  rw [show (2 : ℕ) = 1 + 1 from rfl, accumLoop_succ, accumLoop_succ]
  show 0 + f 0 + f 1 = f 0 + f 1
  rw [zero_add]

theorem replicate_append_getD_mid (n : ℕ) (a b : ℤ) :
    (List.replicate n (0 : ℤ) ++ [a, b]).getD n 0 = a := by
  rw [List.getD_eq_getElem?_getD, List.getElem?_append_right (by simp)]
  simp

theorem replicate_append_getD_left (n : ℕ) (a b : ℤ) {w : ℕ} (hw : w < n) :
    (List.replicate n (0 : ℤ) ++ [a, b]).getD w 0 = 0 := by
  rw [List.getD_eq_getElem?_getD,
    List.getElem?_append_left (by simpa using hw)]
  simp [List.getElem?_replicate_of_lt hw]

/-- C7: scalar gradient-correctness law — with `n_ins = 2` (one dense row, one
embedding row) the single interaction term is `dot(dense, emb)`, and for any
scalar upstream gradient `g` on that term (zero upstream gradient on the dense
pass-through and pad positions) backward produces dense gradient `g * emb` and
embedding gradient `g * dense`, for every dense and embedding vector. -/
theorem scalar_gradient_law (in_width : ℕ) (dense embv : ℕ → ℤ) (g : ℤ) :
    (interactionForward in_width 1 dense fun _ => embv).getD in_width 0
      = ∑ k ∈ Finset.range in_width, dense k * embv k
    ∧ (∀ w, w < in_width →
      (interactionBackward in_width 1 dense (fun _ => embv)
          (List.replicate in_width 0 ++ [g, 0])).1 w = g * embv w)
    ∧ (∀ w, w < in_width →
      (interactionBackward in_width 1 dense (fun _ => embv)
          (List.replicate in_width 0 ++ [g, 0])).2 0 w = g * dense w) := by
  have hg01 : gramGradOf in_width (1 + 1) (List.replicate in_width 0 ++ [g, 0]) 0 1 = g := by
    unfold gramGradOf
    rw [if_pos (by omega)]
    have hp : posIn ((0 : ℕ), (1 : ℕ)) (triPairs (1 + 1)) = 0 := by decide
    rw [hp, Nat.add_zero, replicate_append_getD_mid]
  have hgz : ∀ m n, ¬ n > m →
      gramGradOf in_width (1 + 1) (List.replicate in_width 0 ++ [g, 0]) m n = 0 := by
    intro m n hnm
    unfold gramGradOf
    rw [if_neg (by tauto)]
  have hg00 := hgz 0 0 (by omega)
  have hg10 := hgz 1 0 (by omega)
  have hg11 := hgz 1 1 (by omega)
  refine ⟨?_, fun w hw => ?_, fun w hw => ?_⟩
  · have h := outputRow_getD_tri in_width (1 + 1) dense
      (gram in_width (concatRow dense fun _ => embv))
      (show (0 : ℕ) < 1 by omega) (show (1 : ℕ) < 1 + 1 by omega)
    simp only [show posIn ((0 : ℕ), (1 : ℕ)) (triPairs (1 + 1)) = 0 from by decide,
      Nat.add_zero] at h
    rw [show interactionForward in_width 1 dense (fun _ => embv)
        = outputRow in_width (1 + 1) dense
            (gram in_width (concatRow dense fun _ => embv)) from rfl, h]
    unfold gram
    rw [accumLoop_eq_sum]
    exact Finset.sum_congr rfl fun k _ => rfl
  · simp only [interactionBackward]
    unfold scatterDense
    rw [if_pos hw]
    unfold densePassGrad
    rw [if_pos hw, replicate_append_getD_left in_width g 0 hw]
    unfold matrixGrad
    rw [accumLoop_two]
    rw [show (concatRow dense fun _ => embv) 0 w = dense w from rfl,
      show (concatRow dense fun _ => embv) 1 w = embv w from rfl,
      hg00, hg01, hg10]
    ring
  · simp only [interactionBackward]
    unfold scatterEmb
    rw [if_pos ⟨by omega, hw⟩]
    unfold matrixGrad
    rw [accumLoop_two]
    rw [show (concatRow dense fun _ => embv) 0 w = dense w from rfl,
      show (concatRow dense fun _ => embv) 1 w = embv w from rfl,
      hg01, hg10, hg11]
    ring

theorem scalar_gradient_law_witness :
    ((interactionForward 2 1 (fun w => (w : ℤ) + 1) fun _ => fun w => (w : ℤ) + 5).getD 2 0
      = ∑ k ∈ Finset.range 2, ((k : ℤ) + 1) * ((k : ℤ) + 5))
    ∧ (∀ w, w < 2 →
      (interactionBackward 2 1 (fun w => (w : ℤ) + 1) (fun _ => fun w => (w : ℤ) + 5)
          (List.replicate 2 0 ++ [3, 0])).1 w = 3 * ((w : ℤ) + 5))
    ∧ (∀ w, w < 2 →
      (interactionBackward 2 1 (fun w => (w : ℤ) + 1) (fun _ => fun w => (w : ℤ) + 5)
          (List.replicate 2 0 ++ [3, 0])).2 0 w = 3 * ((w : ℤ) + 1)) :=
  scalar_gradient_law 2 (fun w => (w : ℤ) + 1) (fun w => (w : ℤ) + 5) 3

/-- C6: scatter ownership — in the backward scatter, the dense-gradient row is
accumulated onto the caller-owned buffer (`prior + grad`), while each
embedding-gradient row is assigned from rows `1..n_emb` of the
concatenated-matrix gradient regardless of the prior content of the
embedding-gradient buffer. -/
theorem scatter_ownership (n_emb in_width : ℕ) (mGrad : ℕ → ℕ → ℤ)
    (d0 : ℕ → ℤ) (e0 e0' : ℕ → ℕ → ℤ) (e w : ℕ) (he : e < n_emb) (hw : w < in_width) :
    scatterDense in_width mGrad d0 w = d0 w + mGrad 0 w
    ∧ scatterEmb n_emb in_width mGrad e0 e w = mGrad (e + 1) w
    ∧ scatterEmb n_emb in_width mGrad e0 e w = scatterEmb n_emb in_width mGrad e0' e w := by
  unfold scatterDense scatterEmb
  rw [if_pos hw, if_pos ⟨he, hw⟩, if_pos ⟨he, hw⟩]
  exact ⟨rfl, rfl, rfl⟩

theorem scatter_ownership_witness :
    (0 : ℕ) < 1 ∧ (0 : ℕ) < 1 ∧
      (scatterDense 1 (fun _ _ => (4 : ℤ)) (fun _ => 10) 0 = 10 + 4
      ∧ scatterEmb 1 1 (fun _ _ => (4 : ℤ)) (fun _ _ => 20) 0 0 = 4
      ∧ scatterEmb 1 1 (fun _ _ => (4 : ℤ)) (fun _ _ => 20) 0 0
          = scatterEmb 1 1 (fun _ _ => (4 : ℤ)) (fun _ _ => 30) 0 0) :=
  ⟨by decide, by decide,
    scatter_ownership 1 1 (fun _ _ => (4 : ℤ)) (fun _ => 10) (fun _ _ => 20)
      (fun _ _ => 30) 0 0 (by decide) (by decide)⟩

/-- C5: concrete scenario — with `height=2, in_width=2, n_emb=1`,
`dense=[[1,2],[3,4]]`, `emb=[[[5,6]],[[7,8]]]`, sample 0 of the forward pass
yields `Gram = [[5,17],[17,61]]` and output row `[1,2,17,0]`; backward with
`outputGrad[0] = [0,0,1,0]` yields `GramGrad[0] = [[0,1],[0,0]]`, dense
gradient `[5,6]` (accumulated onto the zero pass-through) and embedding
gradient `[1,2]`. -/
theorem concrete_scenario :
    gram 2 (concatRow (scenDense 0) (scenEmb 0)) 0 0 = 5
    ∧ gram 2 (concatRow (scenDense 0) (scenEmb 0)) 0 1 = 17
    ∧ gram 2 (concatRow (scenDense 0) (scenEmb 0)) 1 0 = 17
    ∧ gram 2 (concatRow (scenDense 0) (scenEmb 0)) 1 1 = 61
    ∧ interactionForward 2 1 (scenDense 0) (scenEmb 0) = [1, 2, 17, 0]
    ∧ gramGradOf 2 (1 + 1) [0, 0, 1, 0] 0 0 = 0
    ∧ gramGradOf 2 (1 + 1) [0, 0, 1, 0] 0 1 = 1
    ∧ gramGradOf 2 (1 + 1) [0, 0, 1, 0] 1 0 = 0
    ∧ gramGradOf 2 (1 + 1) [0, 0, 1, 0] 1 1 = 0
    ∧ (interactionBackward 2 1 (scenDense 0) (scenEmb 0) [0, 0, 1, 0]).1 0 = 5
    ∧ (interactionBackward 2 1 (scenDense 0) (scenEmb 0) [0, 0, 1, 0]).1 1 = 6
    ∧ (interactionBackward 2 1 (scenDense 0) (scenEmb 0) [0, 0, 1, 0]).2 0 0 = 1
    ∧ (interactionBackward 2 1 (scenDense 0) (scenEmb 0) [0, 0, 1, 0]).2 0 1 = 2 := by
  decide

/-- C9: ShapeMismatch — whenever the input dimensions disagree with each other
or with the configured shape (in particular `in_width` or `height` differing
between the dense and the embedding input), the checked forward call returns
the `ShapeMismatch` error before any computation, producing no output. -/
theorem shape_mismatch_fails (cfg_height cfg_n_emb cfg_width : ℕ)
    (d : DenseInput) (e : EmbInput)
    (h : d.width ≠ e.width ∨ d.height ≠ e.height ∨ d.height ≠ cfg_height
      ∨ d.width ≠ cfg_width ∨ e.height ≠ cfg_height ∨ e.width ≠ cfg_width
      ∨ e.n_emb ≠ cfg_n_emb) :
    forwardChecked cfg_height cfg_n_emb cfg_width d e
      = Except.error InteractionError.ShapeMismatch := by
  unfold forwardChecked
  rw [if_neg]
  rintro ⟨h1, h2, h3, h4, h5⟩
  rcases h with h | h | h | h | h | h | h <;> omega

theorem shape_mismatch_fails_witness :
    ((DenseInput.mk 2 3 fun _ _ => 1).width ≠ (EmbInput.mk 2 1 2 fun _ _ _ => 1).width
      ∨ (DenseInput.mk 2 3 fun _ _ => 1).height ≠ (EmbInput.mk 2 1 2 fun _ _ _ => 1).height
      ∨ (DenseInput.mk 2 3 fun _ _ => 1).height ≠ 2
      ∨ (DenseInput.mk 2 3 fun _ _ => 1).width ≠ 2
      ∨ (EmbInput.mk 2 1 2 fun _ _ _ => 1).height ≠ 2
      ∨ (EmbInput.mk 2 1 2 fun _ _ _ => 1).width ≠ 2
      ∨ (EmbInput.mk 2 1 2 fun _ _ _ => 1).n_emb ≠ 1)
    ∧ forwardChecked 2 1 2 (DenseInput.mk 2 3 fun _ _ => 1)
        (EmbInput.mk 2 1 2 fun _ _ _ => 1)
      = Except.error InteractionError.ShapeMismatch :=
  ⟨Or.inl (by decide),
    shape_mismatch_fails 2 1 2 (DenseInput.mk 2 3 fun _ _ => 1)
      (EmbInput.mk 2 1 2 fun _ _ _ => 1) (Or.inl (by decide))⟩

end Interaction
